import Mathlib

/-!
Verification development for the structural extraction and aggregation engine
of the Site-Request-Analyzer repository (file `api_query_analyzer.py`).

Python text values are embedded as `List Char`; Python sets are embedded as
duplicate-free insertion-ordered lists (`addSet` is a no-op on a present
element, matching `set.add`); Python dicts are embedded as insertion-ordered
association lists whose update keeps the position of an existing key.
-/

namespace SRA


/-- Str is the embedding of a Python `str` value as a list of characters. -/
abbrev Str := List Char

/-- squote is the single-quote character. -/
def squote : Char := Char.ofNat 39

/-- dquote is the double-quote character. -/
def dquote : Char := Char.ofNat 34

/-- bslash is the backslash character. -/
def bslash : Char := Char.ofNat 92

/-- lbrace is the opening curly brace character. -/
def lbrace : Char := Char.ofNat 123

/-- rbrace is the closing curly brace character. -/
def rbrace : Char := Char.ofNat 125

/-- pyIsSpace embeds the whitespace test of Python `str.strip`. -/
def pyIsSpace (c : Char) : Bool :=
  c = ' ' || c = Char.ofNat 9 || c = Char.ofNat 10 || c = Char.ofNat 13
    || c = Char.ofNat 11 || c = Char.ofNat 12

/-- pyStrip embeds Python `str.strip()`: drop whitespace from both ends. -/
def pyStrip (l : Str) : Str :=
  (l.dropWhile pyIsSpace).reverse.dropWhile pyIsSpace |>.reverse

/-- headIs embeds the single-character form of Python `str.startswith`. -/
def headIs (l : Str) (c : Char) : Bool := l.head? = some c

/-- lastIs embeds the single-character form of Python `str.endswith`. -/
def lastIs (l : Str) (c : Char) : Bool := l.getLast? = some c

/-- dropEnds embeds the Python slice `s[1:-1]`. -/
def dropEnds (l : Str) : Str := (l.drop 1).dropLast

/-- splitFirstChar embeds Python `s.split(c, 1)` for a separator that occurs in
`s`: the text before the first occurrence of `c` and the text after it.  When
`c` does not occur the whole text is returned with an empty remainder. -/
def splitFirstChar (c : Char) : Str → Str × Str
  | [] => ([], [])
  | x :: xs =>
    if x = c then ([], xs)
    else
      let p := splitFirstChar c xs
      (x :: p.1, p.2)

/-- splitChar embeds Python `s.split(c)` (split on every occurrence; the
result always has at least one element, and empty pieces are kept). -/
def splitChar (c : Char) : Str → List Str
  | [] => [[]]
  | x :: xs =>
    let r := splitChar c xs
    if x = c then [] :: r
    else (x :: r.headI) :: r.tail

/-- ScanSt is the scan state of the depth-aware tokenizer: the inside-string
flag, the active string delimiter, the brace depth and the bracket depth, as
maintained by the loops at lines 418-458, 769-809 and 818-854 of
`api_query_analyzer.py`. -/
structure ScanSt where
  inString : Bool := false
  delim : Option Char := none
  brace : Int := 0
  bracket : Int := 0
deriving DecidableEq

/-- scanStep embeds the per-character state update of the tokenizer loop.  A
quote character toggles the inside-string flag only when no string is open or
when it equals the active delimiter; braces and brackets adjust the depth
counters; every other character leaves the state unchanged. -/
def scanStep (st : ScanSt) (c : Char) : ScanSt :=
  if (c = dquote ∨ c = squote) ∧ (st.inString = false ∨ st.delim = some c) then
    if st.inString then { st with inString := false, delim := none }
    else { st with inString := true, delim := some c }
  else if c = lbrace then { st with brace := st.brace + 1 }
  else if c = rbrace then { st with brace := st.brace - 1 }
  else if c = '[' then { st with bracket := st.bracket + 1 }
  else if c = ']' then { st with bracket := st.bracket - 1 }
  else st

/-- splitsHere decides whether a character terminates the current token: it is
a comma read outside any string at brace depth zero and bracket depth zero. -/
def splitsHere (st : ScanSt) (c : Char) : Bool :=
  c = ',' ∧ st.inString = false ∧ st.brace = 0 ∧ st.bracket = 0

/-- tokenizeAux embeds the tokenizer loop of `_extract_body_structure`
(lines 418-458): tokens are accumulated incrementally; each splitting comma
appends the stripped current token (even when empty), and at end of input the
final token is appended only when non-empty after stripping. -/
def tokenizeAux (st : ScanSt) (cur : Str) (acc : List Str) : Str → List Str
  | [] => if pyStrip cur ≠ [] then acc ++ [pyStrip cur] else acc
  | c :: cs =>
    if splitsHere st c then tokenizeAux st [] (acc ++ [pyStrip cur]) cs
    else tokenizeAux (scanStep st c) (cur ++ [c]) acc cs

/-- tokenizeTop is the depth-aware tokenizer applied from the initial scan
state; it is shared verbatim by `_extract_body_structure`,
`_parse_array_items` and `_extract_nested_object_properties`. -/
def tokenizeTop (l : Str) : List Str := tokenizeAux {} [] [] l

/-- splitTopAux is the specification-side splitter: it returns the raw
(unstripped) segments of the input obtained by cutting exactly at the
characters `splitsHere` accepts. -/
def splitTopAux (st : ScanSt) (cur : Str) : Str → List Str
  | [] => [cur]
  | c :: cs =>
    if splitsHere st c then cur :: splitTopAux st [] cs
    else splitTopAux (scanStep st c) (cur ++ [c]) cs

/-- topSegments lists the raw top-level segments of a text span, split exactly
at commas outside strings at brace depth zero and bracket depth zero. -/
def topSegments (l : Str) : List Str := splitTopAux {} [] l

/-- stripSegs strips every segment and then drops the final segment when it is
empty after stripping, matching how the tokenizer emits tokens. -/
def stripSegs (segs : List Str) : List Str :=
  let t := segs.map pyStrip
  t.dropLast ++ (match t.getLast? with
    | some x => if x ≠ [] then [x] else []
    | none => [])

/-- parseArrayItems embeds `_parse_array_items` (lines 769-809): the loop is
character for character the same scan as the tokenizer of
`_extract_body_structure`, so the function coincides with `tokenizeTop`. -/
def parseArrayItems : Str → List Str := tokenizeTop

/-- EValue is the embedding of the Python values stored in the `example`
field of a shape descriptor: a string, an `int`, a `float` (embedded as an
exact rational, faithful for the decimal literals the engine parses), or a
boolean. -/
inductive EValue where
  | str (s : Str)
  | intE (n : Int)
  | floatE (q : Rat)
  | boolE (b : Bool)
deriving DecidableEq

/-- NShape is a nested shape descriptor as built by
`_extract_nested_object_properties`: a type tag and an example value (the
source always stores the raw token text, an `EValue.str`). -/
structure NShape where
  type : Str
  exampleVal : EValue
deriving DecidableEq

/-- Shape is a top-level shape descriptor as built by the token loop of
`_extract_body_structure`: type tag, example value, optional array item type
tag, and optional nested object properties. -/
structure Shape where
  type : Str
  exampleVal : EValue
  items : Option Str
  properties : Option (List (Str × NShape))
deriving DecidableEq

/-- Body is a request body structure: `contentType` plus a property map. -/
structure Body where
  contentType : Str
  properties : List (Str × Shape)
deriving DecidableEq

/-- Record is one endpoint record of the aggregator, mirroring the default
value of the `backend_endpoints` defaultdict (lines 18-28).  Python sets are
embedded as duplicate-free lists and dicts as association lists. -/
structure Record where
  files : List Str := []
  params : List (Str × List (Option Str)) := []
  template_params : List Str := []
  dynamic_patterns : List Str := []
  http_methods : List Str := []
  request_bodies : List Body := []
  responses : List Body := []
deriving DecidableEq

/-- defaultRecord is the record a defaultdict access creates. -/
def defaultRecord : Record := {}

/-- addSet embeds Python `set.add`: a no-op when the element is present. -/
def addSet {α : Type} [DecidableEq α] (l : List α) (x : α) : List α :=
  if x ∈ l then l else l ++ [x]

/-- upsert embeds a Python dict assignment `d[k] = v`: an existing key keeps
its position and gets the new value, a new key is appended. -/
def upsert {β : Type} : List (Str × β) → Str → β → List (Str × β)
  | [], k, v => [(k, v)]
  | (k', v') :: t, k, v =>
    if k' = k then (k, v) :: t else (k', v') :: upsert t k v

/-- lookupA embeds a Python dict read `d[k]` / `d.get(k)` (first match). -/
def lookupA {β : Type} : List (Str × β) → Str → Option β
  | [], _ => none
  | (k', v') :: t, k => if k' = k then some v' else lookupA t k

/-- strContains embeds the Python substring test `pat in l`. -/
def strContains : Str → Str → Bool
  | l, pat =>
    pat.isPrefixOf l ||
      (match l with
       | [] => false
       | _ :: t => strContains t pat)

/-- pyIsDigit embeds Python `str.isdigit` on ASCII text. -/
def pyIsDigit (l : Str) : Bool := l ≠ [] && l.all Char.isDigit

/-- numBody decides the unsigned part of the numeric pattern
`^-?\d+(\.\d+)?$`: one or more digits, optionally a dot and more digits. -/
def numBody (l : Str) : Bool :=
  let d1 := l.takeWhile Char.isDigit
  let rest := l.drop d1.length
  d1 ≠ [] && (rest = [] ||
    (match rest with
     | c :: r2 => c = '.' && r2 ≠ [] && r2.all Char.isDigit
     | [] => false))

/-- matchNum embeds `re.match` with the pattern `^-?\d+(\.\d+)?$`. -/
def matchNum (l : Str) : Bool :=
  match l with
  | '-' :: r => numBody r
  | _ => numBody l

/-- digitsToNat reads a digit run as a natural number. -/
def digitsToNat (l : Str) : Nat :=
  l.foldl (fun n c => n * 10 + (c.toNat - 48)) 0

/-- parseInt embeds Python `int(s)` on the inputs reachable here (an optional
minus sign and digits); other shapes yield `none` (a `ValueError`). -/
def parseInt (l : Str) : Option Int :=
  match l with
  | '-' :: r => if r ≠ [] && r.all Char.isDigit then some (-(digitsToNat r : Int)) else none
  | r => if r ≠ [] && r.all Char.isDigit then some (digitsToNat r : Int) else none

/-- parseDecPos reads `digits.digits` as an exact rational. -/
def parseDecPos (l : Str) : Option Rat :=
  let p := splitFirstChar '.' l
  if '.' ∈ l && p.1 ≠ [] && p.1.all Char.isDigit && p.2 ≠ [] && p.2.all Char.isDigit then
    some (mkRat (digitsToNat p.1 * 10 ^ p.2.length + digitsToNat p.2) (10 ^ p.2.length))
  else none

/-- parseDec embeds Python `float(s)` on the inputs reachable here (an
optional minus sign, digits, a dot, digits); the decimal value is kept
exactly. -/
def parseDec (l : Str) : Option Rat :=
  match l with
  | '-' :: r => (parseDecPos r).map (fun q => Rat.neg q)
  | r => parseDecPos r

/-- numExample embeds lines 480-483: the example of a numeric value is
`float(value)` when a dot is present, else `int(value)`; a parse failure
keeps the raw text as the example. -/
def numExample (value : Str) : EValue :=
  if '.' ∈ value then
    match parseDec value with
    | some q => .floatE q
    | none => .str value
  else
    match parseInt value with
    | some n => .intE n
    | none => .str value

/-- isQuoteChar tests for a single or double quote. -/
def isQuoteChar (c : Char) : Bool := c = squote || c = dquote

/-- stripQuotes embeds Python `value.strip` with both quote characters:
every leading or trailing quote character is removed. -/
def stripQuotes (l : Str) : Str :=
  (l.dropWhile isQuoteChar).reverse.dropWhile isQuoteChar |>.reverse

/-- cleanKey embeds lines 466-468: strip the key, then remove one pair of
surrounding quotes when the key both starts and ends with the same quote. -/
def cleanKey (raw : Str) : Str :=
  let key := pyStrip raw
  if (headIs key dquote && lastIs key dquote) || (headIs key squote && lastIs key squote) then
    dropEnds key
  else key

/-- classifyNested embeds the type determination of
`_extract_nested_object_properties` (lines 866-883): the example is always
the raw (possibly quote-stripped) token text. -/
def classifyNested (v : Str) : NShape :=
  if v = "true".data ∨ v = "false".data then ⟨"boolean".data, .str v⟩
  else if pyIsDigit v || matchNum v then ⟨"number".data, .str v⟩
  else if headIs v '[' && lastIs v ']' then ⟨"array".data, .str v⟩
  else if headIs v lbrace && lastIs v rbrace then ⟨"object".data, .str v⟩
  else if headIs v dquote || headIs v squote then ⟨"string".data, .str (stripQuotes v)⟩
  else ⟨"string".data, .str v⟩

/-- nestedTokenStep embeds the token loop of
`_extract_nested_object_properties` (lines 857-883): a token without a colon
is skipped, otherwise it is split at the first colon into a cleaned key and a
classified value. -/
def nestedTokenStep (props : List (Str × NShape)) (token : Str) : List (Str × NShape) :=
  if ':' ∈ token then
    let p := splitFirstChar ':' token
    upsert props (cleanKey p.1) (classifyNested (pyStrip p.2))
  else props

/-- extractNestedObjectProperties embeds `_extract_nested_object_properties`
(lines 811-887): when the text is brace-delimited, strip the braces, tokenize
the inside and process each token; otherwise nothing is produced. -/
def extractNestedObjectProperties (objStr : Str) : List (Str × NShape) :=
  if headIs objStr lbrace && lastIs objStr rbrace then
    (tokenizeTop (pyStrip (dropEnds objStr))).foldl nestedTokenStep []
  else []

/-- classifyValue embeds the value classification of the token loop of
`_extract_body_structure` (lines 471-530): booleans first, then numbers,
arrays (with an item type inferred from the first item), objects (recursing
into the nested extractor; when no nested properties are found the final
assignment at line 527 still runs with `prop_type = "object"`), quoted
strings, `new ...Date...` expressions, and a plain-string fallback. -/
def classifyValue (value : Str) : Shape :=
  if value = "true".data ∨ value = "false".data then
    ⟨"boolean".data, .boolE (value = "true".data), none, none⟩
  else if pyIsDigit value || matchNum value then
    ⟨"number".data, numExample value, none, none⟩
  else if headIs value '[' && lastIs value ']' then
    let arrayContent := pyStrip (dropEnds value)
    let itemsType :=
      if arrayContent ≠ [] then
        match parseArrayItems arrayContent with
        | sample :: _ =>
          if pyIsDigit sample || matchNum sample then "number".data
          else if sample = "true".data ∨ sample = "false".data then "boolean".data
          else if headIs sample lbrace && lastIs sample rbrace then "object".data
          else "string".data
        | [] => "string".data
      else "string".data
    ⟨"array".data, .str value, some itemsType, none⟩
  else if headIs value lbrace && lastIs value rbrace then
    let nested := extractNestedObjectProperties value
    if nested ≠ [] then ⟨"object".data, .str value, none, some nested⟩
    else ⟨"object".data, .str value, none, none⟩
  else if headIs value dquote || headIs value squote then
    ⟨"string".data, .str (stripQuotes value), none, none⟩
  else if "new ".data.isPrefixOf value && strContains value "Date".data then
    ⟨"string".data, .str "2023-01-01T00:00:00Z".data, none, none⟩
  else ⟨"string".data, .str value, none, none⟩

/-- tokenStep embeds one iteration of the token loop of
`_extract_body_structure` (lines 461-530): tokens without a colon are
skipped; the others are split at the first colon into a cleaned key and a
classified value, written into the property dict. -/
def tokenStep (props : List (Str × Shape)) (token : Str) : List (Str × Shape) :=
  if ':' ∈ token then
    let p := splitFirstChar ':' token
    upsert props (cleanKey p.1) (classifyValue (pyStrip p.2))
  else props

/-- extractProps embeds lines 411-534: an empty body inside the braces yields
the sentinel `emptyObject` property, otherwise the inside is tokenized and
each token processed. -/
def extractProps (contentInside : Str) : List (Str × Shape) :=
  if contentInside = [] then
    [("emptyObject".data, ⟨"object".data, .str [lbrace, rbrace], none, none⟩)]
  else (tokenizeTop contentInside).foldl tokenStep []

/-- keysSetEq embeds the Python check `set(props1.keys()) == set(props2.keys())`. -/
def keysSetEq {β : Type} (p1 p2 : List (Str × β)) : Bool :=
  (p1.map Prod.fst).all (fun k => k ∈ p2.map Prod.fst)
    && (p2.map Prod.fst).all (fun k => k ∈ p1.map Prod.fst)

/-- propTypeOf embeds the read of the `type` field of `props[key]`. -/
def propTypeOf (ps : List (Str × Shape)) (k : Str) : Option Str :=
  (lookupA ps k).map Shape.type

/-- compareBodyStructures embeds `_compare_body_structures` (lines 629-654):
equal content types, equal emptiness of the property sets, equal property-name
sets, and for every property name of the first body an equal type in the
second.  Example values and nested `properties`/`items` are not inspected.
The source catches any exception and returns False; no operation of this
embedding can fail, matching the fact that on well-formed body structures the
Python comparison does not raise. -/
def compareBodyStructures (b1 b2 : Body) : Bool :=
  (b1.contentType == b2.contentType)
    && (b1.properties.isEmpty == b2.properties.isEmpty)
    && keysSetEq b1.properties b2.properties
    && b1.properties.all (fun kv => propTypeOf b1.properties kv.1 == propTypeOf b2.properties kv.1)

/-- observeBodyList embeds lines 543-552: the body structure is appended to
`request_bodies` only when no existing entry compares equivalent to it. -/
def observeBodyList (l : List Body) (b : Body) : List Body :=
  if l.any (fun e => compareBodyStructures e b) then l else l ++ [b]

/-- pyUpper embeds Python `str.upper` on ASCII text. -/
def pyUpper (l : Str) : Str := l.map Char.toUpper

/-- observeFile embeds the observe operation `files.add(filename)`. -/
def observeFile (r : Record) (f : Str) : Record :=
  { r with files := addSet r.files f }

/-- addParamValue embeds `params[name].add(value)` on the defaultdict of
sets: a read of a missing name creates an empty set. -/
def addParamValue : List (Str × List (Option Str)) → Str → Option Str →
    List (Str × List (Option Str))
  | [], n, v => [(n, addSet [] v)]
  | (k, vs) :: t, n, v =>
    if k = n then (k, addSet vs v) :: t else (k, vs) :: addParamValue t n v

/-- observeStaticParam embeds the observe operation
`params[name].add(value)`; the value is `none` for the null marker. -/
def observeStaticParam (r : Record) (name : Str) (v : Option Str) : Record :=
  { r with params := addParamValue r.params name v }

/-- observeTemplateParam embeds `template_params.add(expr)`. -/
def observeTemplateParam (r : Record) (e : Str) : Record :=
  { r with template_params := addSet r.template_params e }

/-- observeDynamicParam embeds `dynamic_patterns.add(f"{key}=dynamic")`. -/
def observeDynamicParam (r : Record) (n : Str) : Record :=
  { r with dynamic_patterns := addSet r.dynamic_patterns (n ++ "=dynamic".data) }

/-- observeMethod embeds `http_methods.add(method.upper())`; every call site
of the source uppercases the method token before adding it. -/
def observeMethod (r : Record) (m : Str) : Record :=
  { r with http_methods := addSet r.http_methods (pyUpper m) }

/-- observeBodyRec embeds the observe operation on `request_bodies`. -/
def observeBodyRec (r : Record) (b : Body) : Record :=
  { r with request_bodies := observeBodyList r.request_bodies b }

/-- SerRecord is one serialized endpoint record as produced by
`_prepare_for_serialization` (lines 44-57). -/
structure SerRecord where
  files : List Str
  params : List (Str × List (Option Str))
  template_params : List Str
  dynamic_patterns : List Str
  http_methods : List Str
  request_bodies : List Body
  responses : List Body
deriving DecidableEq

/-- serializeRecord embeds the per-record body of
`_prepare_for_serialization`: sets become lists and an empty method set is
replaced by the default `["GET"]`. -/
def serializeRecord (r : Record) : SerRecord :=
  ⟨r.files, r.params, r.template_params, r.dynamic_patterns,
   if r.http_methods = [] then ["GET".data] else r.http_methods,
   r.request_bodies, r.responses⟩

/-- AggState is the aggregator state: the `backend_endpoints` mapping from
canonical endpoint key to endpoint record. -/
abbrev AggState := List (Str × Record)

/-- getRec embeds a defaultdict read: a missing key yields the default
record. -/
def getRec (st : AggState) (k : Str) : Record :=
  (lookupA st k).getD defaultRecord

/-- extractBodyStructure embeds `_extract_body_structure` (lines 395-555):
text that is not brace-delimited after stripping is ignored; otherwise the
inside is processed into properties, and when at least one property was found
the body structure is recorded for the endpoint unless an equivalent one is
already present.  The surrounding try/except of the source never fires on
this total embedding. -/
def extractBodyStructure (st : AggState) (endpoint : Str) (bodyContent : Str) : AggState :=
  let bc := pyStrip bodyContent
  if ¬(headIs bc lbrace && lastIs bc rbrace) then st
  else
    let props := extractProps (pyStrip (dropEnds bc))
    if props = [] then st
    else
      let body : Body := ⟨"application/json".data, props⟩
      upsert st endpoint (observeBodyRec (getRec st endpoint) body)

/-- hexVal reads one hexadecimal digit. -/
def hexVal (c : Char) : Option Nat :=
  if c.isDigit then some (c.toNat - 48)
  else if 'A' ≤ c ∧ c ≤ 'F' then some (c.toNat - 55)
  else if 'a' ≤ c ∧ c ≤ 'f' then some (c.toNat - 87)
  else none

/-- pyUnquote embeds `urllib.parse.unquote` for single-byte percent escapes
(a `%` followed by two hexadecimal digits is decoded, anything else is kept);
multi-byte UTF-8 sequences are not recomposed, which no claim exercises. -/
def pyUnquote : Str → Str
  | [] => []
  | '%' :: a :: b :: rest =>
    match hexVal a, hexVal b with
    | some x, some y => Char.ofNat (x * 16 + y) :: pyUnquote rest
    | _, _ => '%' :: pyUnquote (a :: b :: rest)
  | c :: rest => c :: pyUnquote rest
termination_by l => l.length

/-- appendParamList embeds `params[key].append(value)` on the
defaultdict of lists used by `_parse_query_string`. -/
def appendParamList : List (Str × List (Option Str)) → Str → Option Str →
    List (Str × List (Option Str))
  | [], k, v => [(k, [v])]
  | (k', vs) :: t, k, v =>
    if k' = k then (k', vs ++ [v]) :: t else (k', vs) :: appendParamList t k v

/-- qsStep embeds the per-piece body of the loop of `_parse_query_string`:
a piece with an equals sign contributes its unquoted value under its name, a
piece without one contributes the null marker `None` under the whole
piece. -/
def qsStep (acc : List (Str × List (Option Str))) (param : Str) :
    List (Str × List (Option Str)) :=
  if '=' ∈ param then
    let p := splitFirstChar '=' param
    appendParamList acc p.1 (some (pyUnquote p.2))
  else appendParamList acc param none

/-- parseQueryString embeds `_parse_query_string` (lines 656-668): the query
text is split on every ampersand and each piece is processed by `qsStep`. -/
def parseQueryString (qs : Str) : List (Str × List (Option Str)) :=
  (splitChar '&' qs).foldl qsStep []

/-- obsEntryStep embeds one iteration of the recording loop of
`_find_static_query_params` (lines 92-94): every value of one parsed
parameter is added to the record's value set of that parameter. -/
def obsEntryStep (r : Record) (kv : Str × List (Option Str)) : Record :=
  kv.2.foldl (fun r v => observeStaticParam r kv.1 v) r

/-- observeQueryString embeds the parameter recording loop of
`_find_static_query_params` (lines 90-94). -/
def observeQueryString (r : Record) (qs : Str) : Record :=
  (parseQueryString qs).foldl obsEntryStep r

/-- subTemplate embeds `re.sub` with the pattern matching a dollar sign, an
opening brace, one or more characters other than a closing brace, and a
closing brace (the template interpolation marker), replacing every
non-overlapping occurrence, scanned left to right, by `repl`. -/
def subTemplate (repl : Str) : Str → Str
  | [] => []
  | c :: rest =>
    if c = '$' ∧ rest.head? = some lbrace then
      let r2 := rest.tail
      let inner := r2.takeWhile (fun x => x ≠ rbrace)
      if inner ≠ [] ∧ inner.length < r2.length then
        repl ++ subTemplate repl (r2.drop (inner.length + 1))
      else c :: subTemplate repl rest
    else c :: subTemplate repl rest
termination_by l => l.length
decreasing_by
  · simp [List.length_drop]; omega
  · simp
  · simp

/-- templateExprs embeds `re.findall` (and the equivalent `finditer` loop)
with the same interpolation pattern: the list of captured inner expressions,
scanned left to right without overlap. -/
def templateExprs : Str → List Str
  | [] => []
  | c :: rest =>
    if c = '$' ∧ rest.head? = some lbrace then
      let r2 := rest.tail
      let inner := r2.takeWhile (fun x => x ≠ rbrace)
      if inner ≠ [] ∧ inner.length < r2.length then
        inner :: templateExprs (r2.drop (inner.length + 1))
      else templateExprs rest
    else templateExprs rest
termination_by l => l.length
decreasing_by
  · simp [List.length_drop]; omega
  · simp
  · simp

/-- takeBeforeMarker embeds `template_content.split(two-char marker, 1)[0]`:
the text before the first occurrence of a dollar sign followed by an opening
brace. -/
def takeBeforeMarker : Str → Str
  | [] => []
  | c :: rest =>
    if c = '$' ∧ rest.head? = some lbrace then []
    else c :: takeBeforeMarker rest

/-- phPARAM is the stable placeholder written into aggregation keys. -/
def phPARAM : Str := lbrace :: ("PARAM".data ++ [rbrace])

/-- tlMarker is the two-character interpolation start marker. -/
def tlMarker : Str := ['$', lbrace]

/-- tlDynamicBranch embeds lines 123-148 of `_find_template_literal_params`:
when the template has dynamic parts and the text before the first marker
starts with `/api/`, the normalized key replaces every interpolation by the
single placeholder, and the file, the detected method and every captured
inner expression are recorded under that key. -/
def tlDynamicBranch (st : AggState) (fname content method : Str) : AggState :=
  if strContains content tlMarker = true ∧ rbrace ∈ content then
    if "/api/".data <+: takeBeforeMarker content then
      let key := subTemplate phPARAM content
      let r := getRec st key
      let r := { r with
        files := addSet r.files fname,
        http_methods := addSet r.http_methods method,
        template_params := (templateExprs content).foldl addSet r.template_params }
      upsert st key r
    else st
  else st

/-- tlQueryBranch embeds lines 150-186 of `_find_template_literal_params`:
when the template contains `/api/` and a question mark, the un-normalized
path part becomes the key; the file is recorded, the captured expressions of
the query part become template parameters, and each ampersand-separated piece
of the query (with interpolations replaced by `TEMPLATE_VAR`) is recorded as
a static parameter or as a dynamic-pattern marker.  tlPairStep is the loop
body at lines 176-184: a piece with an equals sign is recorded as a static
parameter unless it mentions the interpolation placeholder, in which case it
is recorded as a dynamic-pattern marker. -/
def tlPairStep (endpoint : Str) (st : AggState) (pair : Str) : AggState :=
  if '=' ∈ pair then
    if strContains pair "TEMPLATE_VAR".data = true then
      upsert st endpoint
        (observeDynamicParam (getRec st endpoint) (splitFirstChar '=' pair).1)
    else
      let kv := splitFirstChar '=' pair
      upsert st endpoint (observeStaticParam (getRec st endpoint) kv.1 (some kv.2))
  else st

/-- tlQueryBranch is the query-string branch described on `tlPairStep`. -/
def tlQueryBranch (st : AggState) (fname content : Str) : AggState :=
  if strContains content "/api/".data = true ∧ '?' ∈ content then
    let p := splitFirstChar '?' content
    let endpoint := p.1
    let query := p.2
    if "/api/".data <+: endpoint then
      let st1 := upsert st endpoint (observeFile (getRec st endpoint) fname)
      if query ≠ [] then
        let st2 := upsert st1 endpoint
          ((templateExprs query).foldl observeTemplateParam (getRec st1 endpoint))
        let pairs := splitChar '&' (subTemplate "TEMPLATE_VAR".data query)
        pairs.foldl (tlPairStep endpoint) st2
      else st1
    else st
  else st

/-- processTemplateLiteral embeds the per-template body of the loop of
`_find_template_literal_params` (lines 112-186): the dynamic-part branch
followed by the query-string branch. -/
def processTemplateLiteral (st : AggState) (fname content method : Str) : AggState :=
  tlQueryBranch (tlDynamicBranch st fname content method) fname content

/-- Seg is one piece of a template literal: literal text or an interpolated
expression `$\x7bexpr\x7d`. -/
inductive Seg where
  | lit (s : Str)
  | expr (e : Str)
deriving DecidableEq

/-- renderSeg renders one template piece back to source text. -/
def renderSeg : Seg → Str
  | .lit s => s
  | .expr e => '$' :: lbrace :: (e ++ [rbrace])

/-- render renders a whole template literal to source text. -/
def render (segs : List Seg) : Str := (segs.map renderSeg).flatten

/-- renderPH renders a template with every interpolated expression replaced
by the same replacement text; this is the wording of the specification for
the canonical aggregation key. -/
def renderPH (repl : Str) (segs : List Seg) : Str :=
  (segs.map (fun s => match s with | .lit t => t | .expr _ => repl)).flatten

/-- segExprs lists the interpolated expressions of a template in order. -/
def segExprs (segs : List Seg) : List Str :=
  segs.filterMap (fun s => match s with | .expr e => some e | _ => none)

/-- wfSeg states the well-formedness used by the rendering lemmas: literal
text carries no dollar sign, and an expression is non-empty and carries no
closing brace (so that it is exactly what the interpolation pattern
captures). -/
def wfSeg : Seg → Prop
  | .lit s => '$' ∉ s
  | .expr e => e ≠ [] ∧ rbrace ∉ e

instance : (s : Seg) → Decidable (wfSeg s)
  | .lit s => inferInstanceAs (Decidable ('$' ∉ s))
  | .expr e => inferInstanceAs (Decidable (e ≠ [] ∧ rbrace ∉ e))

/-- skelEq relates two template pieces with the same skeleton: equal literal
text, or both being interpolations (of possibly different expressions). -/
def skelEq : Seg → Seg → Prop
  | .lit s, .lit t => s = t
  | .expr _, .expr _ => True
  | _, _ => False

instance : (s t : Seg) → Decidable (skelEq s t)
  | .lit s, .lit t => inferInstanceAs (Decidable (s = t))
  | .lit _, .expr _ => inferInstanceAs (Decidable False)
  | .expr _, .lit _ => inferInstanceAs (Decidable False)
  | .expr _, .expr _ => inferInstanceAs (Decidable True)

/-- bodyEquivP restates the equivalence contract of the specification as a
proposition: same content type, property sets both empty or both non-empty,
identical property-name sets, and identical type for every property name of
the first body (hence for every shared name). -/
def bodyEquivP (b1 b2 : Body) : Prop :=
  b1.contentType = b2.contentType
  ∧ (b1.properties = [] ↔ b2.properties = [])
  ∧ (∀ k, k ∈ b1.properties.map Prod.fst ↔ k ∈ b2.properties.map Prod.fst)
  ∧ ∀ kv ∈ b1.properties, propTypeOf b1.properties kv.1 = propTypeOf b2.properties kv.1

/-- exObjA1 is the raw value text `\x7ba: 1\x7d`. -/
def exObjA1 : Str := lbrace :: ("a: 1".data ++ [rbrace])

/-- exHello is the raw value text `\x27hello\x27`. -/
def exHello : Str := squote :: ("hello".data ++ [squote])

/-- EscSt is the scan state of the tokenizer the claim describes, with a
pending-escape flag in addition to the state the code keeps. -/
structure EscSt where
  inString : Bool := false
  delim : Option Char := none
  escaped : Bool := false
  brace : Int := 0
  bracket : Int := 0
deriving DecidableEq

/-- escStep follows the claim wording: inside a string an escaped delimiter
does not toggle the in-string flag (a backslash escapes the next character),
and only the matching delimiter closes the string. -/
def escStep (st : EscSt) (c : Char) : EscSt :=
  if st.inString then
    if st.escaped then { st with escaped := false }
    else if c = bslash then { st with escaped := true }
    else if some c = st.delim then { st with inString := false, delim := none }
    else st
  else if c = dquote ∨ c = squote then { st with inString := true, delim := some c }
  else if c = lbrace then { st with brace := st.brace + 1 }
  else if c = rbrace then { st with brace := st.brace - 1 }
  else if c = '[' then { st with bracket := st.bracket + 1 }
  else if c = ']' then { st with bracket := st.bracket - 1 }
  else st

/-- escSplits: a comma outside any string at depth zero. -/
def escSplits (st : EscSt) (c : Char) : Bool :=
  c = ',' ∧ st.inString = false ∧ st.brace = 0 ∧ st.bracket = 0

/-- escTokenizeAux is the claim-side tokenizer loop over the escape-aware
state. -/
def escTokenizeAux (st : EscSt) (cur : Str) (acc : List Str) : Str → List Str
  | [] => if pyStrip cur ≠ [] then acc ++ [pyStrip cur] else acc
  | c :: cs =>
    if escSplits st c then escTokenizeAux st [] (acc ++ [pyStrip cur]) cs
    else escTokenizeAux (escStep st c) (cur ++ [c]) acc cs

/-- escTokenize is the tokenizer the claim describes, with escape handling. -/
def escTokenize (l : Str) : List Str := escTokenizeAux {} [] [] l

/-- escInput is the text `a: "\" ", b: 2` (a double-quoted string containing
a backslash-escaped double quote, then a comma, then a second pair). -/
def escInput : Str :=
  ['a', ':', ' ', dquote, bslash, dquote, dquote, ',', ' ', 'b', ':', ' ', '2']

/-- escTokFirst is the first token under the claim reading: `a: "\""`. -/
def escTokFirst : Str := ['a', ':', ' ', dquote, bslash, dquote, dquote]

/-- tokNested is `a: \x7bx: 1, y: 2\x7d, b: [1,2,3]`. -/
def tokNested : Str :=
  "a: ".data ++ (lbrace :: ("x: 1, y: 2".data ++ [rbrace])) ++ ", b: [1,2,3]".data

/-- tokNestedFirst is the first expected token `a: \x7bx: 1, y: 2\x7d`. -/
def tokNestedFirst : Str := "a: ".data ++ (lbrace :: ("x: 1, y: 2".data ++ [rbrace]))

/-- tokDiffQuote is `a: \x27x", y\x27, b: 1`: a single-quoted string holding
a double quote and a comma. -/
def tokDiffQuote : Str :=
  ['a', ':', ' ', squote, 'x', dquote, ',', ' ', 'y', squote, ',', ' ', 'b', ':', ' ', '1']

/-- tokDiffQuoteFirst is the first expected token of `tokDiffQuote`. -/
def tokDiffQuoteFirst : Str :=
  ['a', ':', ' ', squote, 'x', dquote, ',', ' ', 'y', squote]

/-- hasNoneEntry states that a parameter map lists a name with a value set
containing the null marker. -/
def hasNoneEntry (ps : List (Str × List (Option Str))) (p : Str) : Prop :=
  ∃ vs, lookupA ps p = some vs ∧ none ∈ vs

/-- hasNoneParam states that a record lists a parameter name with a value
set containing the null marker. -/
def hasNoneParam (r : Record) (p : Str) : Prop :=
  ∃ vs, lookupA r.params p = some vs ∧ none ∈ vs

theorem splitTopAux_ne_nil (cs : Str) : ∀ st cur, splitTopAux st cur cs ≠ [] := by
  induction cs with
  | nil => intro st cur; simp [splitTopAux]
  | cons c cs ih =>
    intro st cur
    by_cases h : splitsHere st c = true
    · simp [splitTopAux, h]
    · simp only [splitTopAux, h]
      simp only [Bool.false_eq_true, if_false]
      exact ih _ _

theorem stripSegs_cons (x : Str) (xs : List Str) (h : xs ≠ []) :
    stripSegs (x :: xs) = pyStrip x :: stripSegs xs := by
  have hm : xs.map pyStrip ≠ [] := by simpa using h
  obtain ⟨y, ys, hy⟩ := List.exists_cons_of_ne_nil hm
  simp only [stripSegs, List.map_cons, hy]
  rw [List.dropLast_cons_of_ne_nil (by simp), List.getLast?_cons_cons]
  simp

theorem tokenizeAux_eq_stripSegs (cs : Str) :
    ∀ st cur acc, tokenizeAux st cur acc cs = acc ++ stripSegs (splitTopAux st cur cs) := by
  induction cs with
  | nil =>
    intro st cur acc
    simp only [tokenizeAux, splitTopAux, stripSegs]
    by_cases h : pyStrip cur ≠ []
    · simp [h]
    · simp at h
      simp [h]
  | cons c cs ih =>
    intro st cur acc
    by_cases h : splitsHere st c = true
    · simp only [tokenizeAux, splitTopAux, h, if_true]
      rw [ih, stripSegs_cons _ _ (splitTopAux_ne_nil cs st [])]
      simp
    · simp only [tokenizeAux, splitTopAux, h]
      simp only [Bool.false_eq_true, if_false]
      exact ih _ _ _

/-- tokenize_splits_at_top_commas: the tokenizer agrees with the two-phase
description of the specification: split the input exactly at the commas that
occur outside any quoted string at brace depth zero and bracket depth zero,
strip each piece, and drop the final piece when it strips to empty. -/
theorem tokenize_splits_at_top_commas (l : Str) :
    tokenizeTop l = stripSegs (topSegments l) := by
  simpa [tokenizeTop, topSegments] using tokenizeAux_eq_stripSegs l {} [] []

theorem subTemplate_nil (repl : Str) : subTemplate repl [] = [] := by
  simp [subTemplate]

theorem subTemplate_cons_ne (repl : Str) (c : Char) (rest : Str) (h : c ≠ '$') :
    subTemplate repl (c :: rest) = c :: subTemplate repl rest := by
  rw [subTemplate]
  simp [h]

theorem takeWhile_append_stop {p : Char → Bool} (e m : Str) (x : Char)
    (h : ∀ c ∈ e, p c = true) (hx : p x = false) :
    (e ++ x :: m).takeWhile p = e := by
  induction e with
  | nil => simp [hx]
  | cons c t ih =>
    have hc : p c = true := h c (by simp)
    rw [List.cons_append, List.takeWhile_cons, hc]
    simp only [if_true]
    rw [ih (fun d hd => h d (by simp [hd]))]

theorem subTemplate_marker (repl e m : Str) (he : e ≠ []) (hbr : rbrace ∉ e) :
    subTemplate repl ('$' :: lbrace :: (e ++ rbrace :: m)) = repl ++ subTemplate repl m := by
  rw [subTemplate]
  have htw : (e ++ rbrace :: m).takeWhile (fun x => x ≠ rbrace) = e := by
    apply takeWhile_append_stop
    · intro c hc
      simp only [decide_eq_true_eq]
      exact fun hcr => hbr (hcr ▸ hc)
    · simp
  have hdrop : (e ++ rbrace :: m).drop (e.length + 1) = m := by
    have : e ++ rbrace :: m = (e ++ [rbrace]) ++ m := by simp
    rw [this]
    have hlen : (e ++ [rbrace]).length = e.length + 1 := by simp
    rw [← hlen, List.drop_left]
  simp only [List.head?, List.tail, htw, hdrop]
  have hlt : e.length < (e ++ rbrace :: m).length := by simp
  simp [he, hlt]

theorem subTemplate_copy (repl l m : Str) (h : '$' ∉ l) :
    subTemplate repl (l ++ m) = l ++ subTemplate repl m := by
  induction l with
  | nil => simp
  | cons c t ih =>
    have hc : c ≠ '$' := fun hc => h (by simp [hc])
    rw [List.cons_append, subTemplate_cons_ne _ _ _ hc, ih (fun ht => h (by simp [ht]))]
    simp

theorem templateExprs_nil : templateExprs [] = [] := by
  simp [templateExprs]

theorem templateExprs_cons_ne (c : Char) (rest : Str) (h : c ≠ '$') :
    templateExprs (c :: rest) = templateExprs rest := by
  rw [templateExprs]
  simp [h]

theorem templateExprs_marker (e m : Str) (he : e ≠ []) (hbr : rbrace ∉ e) :
    templateExprs ('$' :: lbrace :: (e ++ rbrace :: m)) = e :: templateExprs m := by
  rw [templateExprs]
  have htw : (e ++ rbrace :: m).takeWhile (fun x => x ≠ rbrace) = e := by
    apply takeWhile_append_stop
    · intro c hc
      simp only [decide_eq_true_eq]
      exact fun hcr => hbr (hcr ▸ hc)
    · simp
  have hdrop : (e ++ rbrace :: m).drop (e.length + 1) = m := by
    have : e ++ rbrace :: m = (e ++ [rbrace]) ++ m := by simp
    rw [this]
    have hlen : (e ++ [rbrace]).length = e.length + 1 := by simp
    rw [← hlen, List.drop_left]
  simp only [List.head?, List.tail, htw, hdrop]
  have hlt : e.length < (e ++ rbrace :: m).length := by simp
  simp [he, hlt]

theorem templateExprs_copy (l m : Str) (h : '$' ∉ l) :
    templateExprs (l ++ m) = templateExprs m := by
  induction l with
  | nil => simp
  | cons c t ih =>
    have hc : c ≠ '$' := fun hc => h (by simp [hc])
    rw [List.cons_append, templateExprs_cons_ne _ _ hc, ih (fun ht => h (by simp [ht]))]

theorem takeBeforeMarker_copy (l m : Str) (h : '$' ∉ l) :
    takeBeforeMarker (l ++ m) = l ++ takeBeforeMarker m := by
  induction l with
  | nil => simp
  | cons c t ih =>
    have hc : c ≠ '$' := fun hc => h (by simp [hc])
    simp only [List.cons_append, takeBeforeMarker, hc, false_and, if_false, List.append_eq]
    rw [ih (fun ht => h (by simp [ht]))]

/-- subTemplate_render: on a well-formed template, the source substitution
replaces exactly the interpolated expressions, each by the same replacement
text, and keeps every literal piece. -/
theorem subTemplate_render (repl : Str) (segs : List Seg) (h : ∀ s ∈ segs, wfSeg s) :
    subTemplate repl (render segs) = renderPH repl segs := by
  induction segs with
  | nil => simp [render, renderPH, subTemplate_nil]
  | cons s rest ih =>
    have hrest : ∀ x ∈ rest, wfSeg x := fun x hx => h x (by simp [hx])
    cases s with
    | lit t =>
      have ht : '$' ∉ t := h (.lit t) (by simp)
      simp only [render, renderPH, List.map_cons, List.flatten_cons, renderSeg]
      rw [subTemplate_copy _ _ _ ht]
      have hih := ih hrest
      simp only [render, renderPH] at hih
      rw [hih]
    | expr e =>
      have he := h (.expr e) (by simp)
      simp only [wfSeg] at he
      simp only [render, renderPH, List.map_cons, List.flatten_cons, renderSeg]
      have harr : ('$' :: lbrace :: (e ++ [rbrace])) ++ (rest.map renderSeg).flatten
          = '$' :: lbrace :: (e ++ rbrace :: (rest.map renderSeg).flatten) := by simp
      rw [harr, subTemplate_marker _ _ _ he.1 he.2]
      have hih := ih hrest
      simp only [render, renderPH] at hih
      rw [hih]

/-- templateExprs_render: on a well-formed template, the expression scan
captures exactly the interpolated expressions in order. -/
theorem templateExprs_render (segs : List Seg) (h : ∀ s ∈ segs, wfSeg s) :
    templateExprs (render segs) = segExprs segs := by
  induction segs with
  | nil => simp [render, segExprs, templateExprs_nil]
  | cons s rest ih =>
    have hrest : ∀ x ∈ rest, wfSeg x := fun x hx => h x (by simp [hx])
    cases s with
    | lit t =>
      have ht : '$' ∉ t := h (.lit t) (by simp)
      simp only [render, segExprs, List.map_cons, List.flatten_cons, renderSeg,
        List.filterMap_cons]
      rw [templateExprs_copy _ _ ht]
      have hih := ih hrest
      simp only [render, segExprs] at hih
      rw [hih]
    | expr e =>
      have he := h (.expr e) (by simp)
      simp only [wfSeg] at he
      simp only [render, segExprs, List.map_cons, List.flatten_cons, renderSeg,
        List.filterMap_cons]
      have harr : ('$' :: lbrace :: (e ++ [rbrace])) ++ (rest.map renderSeg).flatten
          = '$' :: lbrace :: (e ++ rbrace :: (rest.map renderSeg).flatten) := by simp
      rw [harr, templateExprs_marker _ _ he.1 he.2]
      have hih := ih hrest
      simp only [render, segExprs] at hih
      rw [hih]

/-- renderPH_eq_of_skel: the placeholder rendering depends only on the
skeleton of the template, not on the interpolated expressions. -/
theorem renderPH_eq_of_skel (repl : Str) {segs segs' : List Seg}
    (h : List.Forall₂ skelEq segs segs') :
    renderPH repl segs = renderPH repl segs' := by
  induction h with
  | nil => rfl
  | @cons s t l l2 hst htail ih =>
    cases s <;> cases t <;> simp only [skelEq] at hst
    · simp only [renderPH, List.map_cons, List.flatten_cons] at ih ⊢
      rw [hst, ih]
    · simp only [renderPH, List.map_cons, List.flatten_cons] at ih ⊢
      rw [ih]

theorem addSet_mem {α : Type} [DecidableEq α] (l : List α) (x y : α) :
    y ∈ addSet l x ↔ y ∈ l ∨ y = x := by
  unfold addSet
  split
  · rename_i hx
    constructor
    · exact fun h => Or.inl h
    · rintro (h | rfl)
      exacts [h, hx]
  · simp

theorem mem_foldl_addSet {α : Type} [DecidableEq α] (xs : List α) (l : List α) (y : α) :
    y ∈ xs.foldl addSet l ↔ y ∈ l ∨ y ∈ xs := by
  induction xs generalizing l with
  | nil => simp
  | cons x xs ih => simp [List.foldl_cons, ih, addSet_mem, or_assoc]

theorem addSet_idem {α : Type} [DecidableEq α] (l : List α) (x : α) :
    addSet (addSet l x) x = addSet l x := by
  unfold addSet
  split
  · rename_i h
    simp [h]
  · simp

theorem lookupA_upsert_self {β : Type} (st : List (Str × β)) (k : Str) (v : β) :
    lookupA (upsert st k v) k = some v := by
  induction st with
  | nil => simp [upsert, lookupA]
  | cons p t ih =>
    obtain ⟨k', v'⟩ := p
    by_cases h : k' = k
    · simp [upsert, lookupA, h]
    · simp [upsert, lookupA, h, ih]

theorem lookupA_upsert_ne {β : Type} (st : List (Str × β)) (k k' : Str) (v : β)
    (h : k' ≠ k) :
    lookupA (upsert st k v) k' = lookupA st k' := by
  have hkk : ¬ k = k' := fun he => h he.symm
  induction st with
  | nil => simp [upsert, lookupA, hkk]
  | cons p t ih =>
    obtain ⟨a, b⟩ := p
    by_cases ha : a = k
    · subst ha
      simp [upsert, lookupA, hkk]
    · simp only [upsert, ha, if_false, lookupA]
      by_cases hb : a = k'
      · simp [hb]
      · simp [hb, ih]

theorem getRec_upsert_self (st : AggState) (k : Str) (v : Record) :
    getRec (upsert st k v) k = v := by
  simp [getRec, lookupA_upsert_self]

theorem getRec_upsert_ne (st : AggState) (k k' : Str) (v : Record) (h : k' ≠ k) :
    getRec (upsert st k v) k' = getRec st k' := by
  simp [getRec, lookupA_upsert_ne _ _ _ _ h]

theorem strContains_of_append (a pat b : Str) :
    strContains (a ++ (pat ++ b)) pat = true := by
  induction a with
  | nil =>
    rw [List.nil_append, strContains.eq_def]
    have hpre : pat.isPrefixOf (pat ++ b) = true := by
      rw [ List.isPrefixOf_iff_prefix]
      exact List.prefix_append pat b
    simp [hpre]
  | cons c t ih =>
    rw [List.cons_append, strContains.eq_def]
    simp [ih]

theorem render_cons (s : Seg) (rest : List Seg) :
    render (s :: rest) = renderSeg s ++ render rest := by
  simp [render, List.map_cons, List.flatten_cons]

theorem render_split_of_expr {e : Str} {segs : List Seg} (h : e ∈ segExprs segs) :
    ∃ a b, render segs = a ++ ('$' :: lbrace :: (e ++ rbrace :: b)) := by
  induction segs with
  | nil => simp [segExprs] at h
  | cons s rest ih =>
    cases s with
    | lit t =>
      have h' : e ∈ segExprs rest := by simpa [segExprs] using h
      obtain ⟨a, b, hab⟩ := ih h'
      refine ⟨t ++ a, b, ?_⟩
      rw [render_cons, renderSeg, hab, List.append_assoc]
    | expr e0 =>
      have hcase : e = e0 ∨ e ∈ segExprs rest := by simpa [segExprs] using h
      rcases hcase with rfl | h'
      · refine ⟨[], render rest, ?_⟩
        rw [render_cons, renderSeg]
        simp
      · obtain ⟨a, b, hab⟩ := ih h'
        refine ⟨renderSeg (.expr e0) ++ a, b, ?_⟩
        rw [render_cons, hab, List.append_assoc]

theorem marker_in_render {segs : List Seg} (hex : segExprs segs ≠ []) :
    strContains (render segs) tlMarker = true ∧ rbrace ∈ render segs := by
  obtain ⟨e, rest, he⟩ := List.exists_cons_of_ne_nil hex
  have hmem : e ∈ segExprs segs := by rw [he]; simp
  obtain ⟨a, b, hab⟩ := render_split_of_expr hmem
  constructor
  · have : render segs = a ++ (tlMarker ++ (e ++ rbrace :: b)) := by
      rw [hab]; simp [tlMarker]
    rw [this]
    exact strContains_of_append _ _ _
  · rw [hab]
    simp

theorem observeTemplateParam_foldl_tp (vars : List Str) (r : Record) :
    (vars.foldl observeTemplateParam r).template_params
      = vars.foldl addSet r.template_params := by
  induction vars generalizing r with
  | nil => rfl
  | cons v vs ih => simp [List.foldl_cons, ih, observeTemplateParam]

theorem tlPairStep_tp_mono (ep : Str) (k e : Str) (pair : Str) (st : AggState)
    (h : e ∈ (getRec st k).template_params) :
    e ∈ (getRec (tlPairStep ep st pair) k).template_params := by
  unfold tlPairStep
  split
  · split
    · by_cases hk : k = ep
      · subst hk
        rw [getRec_upsert_self]
        simpa [observeDynamicParam] using h
      · rw [getRec_upsert_ne _ _ _ _ hk]
        exact h
    · by_cases hk : k = ep
      · subst hk
        rw [getRec_upsert_self]
        simpa [observeStaticParam] using h
      · rw [getRec_upsert_ne _ _ _ _ hk]
        exact h
  · exact h

theorem tlPairs_foldl_tp_mono (pairs : List Str) (ep : Str) (k e : Str) :
    ∀ st : AggState, e ∈ (getRec st k).template_params →
      e ∈ (getRec (pairs.foldl (tlPairStep ep) st) k).template_params := by
  induction pairs with
  | nil => exact fun st h => h
  | cons p ps ih =>
    intro st h
    exact ih _ (tlPairStep_tp_mono ep k e p st h)

theorem tlQueryBranch_tp_mono (st : AggState) (fname content k e : Str)
    (h : e ∈ (getRec st k).template_params) :
    e ∈ (getRec (tlQueryBranch st fname content) k).template_params := by
  unfold tlQueryBranch
  dsimp only
  split
  · split
    · have h1 : e ∈ (getRec (upsert st (splitFirstChar '?' content).1
          (observeFile (getRec st (splitFirstChar '?' content).1) fname)) k).template_params := by
        by_cases hk : k = (splitFirstChar '?' content).1
        · subst hk
          rw [getRec_upsert_self]
          simpa [observeFile] using h
        · rw [getRec_upsert_ne _ _ _ _ hk]
          exact h
      split
      · apply tlPairs_foldl_tp_mono
        by_cases hk : k = (splitFirstChar '?' content).1
        · subst hk
          rw [getRec_upsert_self, observeTemplateParam_foldl_tp]
          rw [mem_foldl_addSet]
          exact Or.inl h1
        · rw [getRec_upsert_ne _ _ _ _ hk]
          exact h1
      · exact h1
    · exact h
  · exact h

/-- C1: for a well-formed template literal whose text before the first
interpolation marker starts with `/api/`, the aggregation key is built by
replacing every interpolation by the same single placeholder (the
`renderPH phPARAM` wording of the specification); two templates that differ
only in the interpolated expressions yield the same key; and after
processing, every captured inner expression is in the `template_params` set
of the record stored under that key. -/
theorem C1_path_normalization_shared_placeholder
    (segs segs' : List Seg) (st : AggState) (fname method s0 : Str) (rest : List Seg)
    (hw : ∀ s ∈ segs, wfSeg s) (hw' : ∀ s ∈ segs', wfSeg s)
    (hsk : List.Forall₂ skelEq segs segs')
    (h0 : segs = .lit s0 :: rest)
    (hapi : "/api/".data <+: s0)
    (hex : segExprs segs ≠ []) :
    subTemplate phPARAM (render segs) = renderPH phPARAM segs
      ∧ subTemplate phPARAM (render segs) = subTemplate phPARAM (render segs')
      ∧ ∀ e ∈ segExprs segs,
          e ∈ (getRec (processTemplateLiteral st fname (render segs) method)
                (subTemplate phPARAM (render segs))).template_params := by
  have hA : subTemplate phPARAM (render segs) = renderPH phPARAM segs :=
    subTemplate_render phPARAM segs hw
  have hB : subTemplate phPARAM (render segs') = renderPH phPARAM segs' :=
    subTemplate_render phPARAM segs' hw'
  refine ⟨hA, ?_, ?_⟩
  · rw [hA, hB]
    exact renderPH_eq_of_skel phPARAM hsk
  · intro e he
    have hmk := marker_in_render hex
    have hns : '$' ∉ s0 := by
      have := hw (.lit s0) (by rw [h0]; simp)
      simpa [wfSeg] using this
    have hpre : "/api/".data <+: takeBeforeMarker (render segs) := by
      rw [h0, render_cons, renderSeg, takeBeforeMarker_copy _ _ hns]
      exact hapi.trans (List.prefix_append _ _)
    have hexprs : templateExprs (render segs) = segExprs segs :=
      templateExprs_render segs hw
    have hdyn : tlDynamicBranch st fname (render segs) method
        = upsert st (subTemplate phPARAM (render segs))
            { getRec st (subTemplate phPARAM (render segs)) with
              files := addSet (getRec st (subTemplate phPARAM (render segs))).files fname,
              http_methods :=
                addSet (getRec st (subTemplate phPARAM (render segs))).http_methods method,
              template_params :=
                (templateExprs (render segs)).foldl addSet
                  (getRec st (subTemplate phPARAM (render segs))).template_params } := by
      unfold tlDynamicBranch
      rw [if_pos hmk, if_pos hpre]
    have hmem : e ∈ (getRec (tlDynamicBranch st fname (render segs) method)
        (subTemplate phPARAM (render segs))).template_params := by
      rw [hdyn, getRec_upsert_self]
      rw [hexprs] at *
      simp only
      rw [mem_foldl_addSet]
      exact Or.inr he
    unfold processTemplateLiteral
    exact tlQueryBranch_tp_mono _ _ _ _ _ hmem

/-- C1 witness: the two spec examples `/api/users/$\x7buserId\x7d` and
`/api/users/$\x7bid\x7d` receive the same aggregation key, and the first
contributes its expression `userId` to the template parameter set of the
shared record. -/
theorem C1_path_normalization_shared_placeholder_witness :
    subTemplate phPARAM (render [Seg.lit "/api/users/".data, Seg.expr "userId".data])
        = subTemplate phPARAM (render [Seg.lit "/api/users/".data, Seg.expr "id".data])
      ∧ ∀ e ∈ segExprs [Seg.lit "/api/users/".data, Seg.expr "userId".data],
          e ∈ (getRec (processTemplateLiteral [] "app.js".data
                (render [Seg.lit "/api/users/".data, Seg.expr "userId".data]) "GET".data)
                (subTemplate phPARAM
                  (render [Seg.lit "/api/users/".data, Seg.expr "userId".data]))).template_params :=
  have t := C1_path_normalization_shared_placeholder
    [Seg.lit "/api/users/".data, Seg.expr "userId".data]
    [Seg.lit "/api/users/".data, Seg.expr "id".data]
    [] "app.js".data "GET".data "/api/users/".data [Seg.expr "userId".data]
    (by decide) (by decide)
    (List.Forall₂.cons rfl (List.Forall₂.cons trivial List.Forall₂.nil))
    rfl (by decide) (by decide)
  ⟨t.2.1, t.2.2⟩

theorem addParamValue_idem (ps : List (Str × List (Option Str))) (n : Str) (v : Option Str) :
    addParamValue (addParamValue ps n v) n v = addParamValue ps n v := by
  induction ps with
  | nil => simp [addParamValue, addSet_idem]
  | cons p t ih =>
    obtain ⟨k, vs⟩ := p
    by_cases h : k = n
    · simp [addParamValue, h, addSet_idem]
    · simp [addParamValue, h, ih]

theorem compareBody_iff (b1 b2 : Body) :
    compareBodyStructures b1 b2 = true ↔ bodyEquivP b1 b2 := by
  unfold compareBodyStructures keysSetEq bodyEquivP
  simp only [Bool.and_eq_true, List.all_eq_true, beq_iff_eq, List.isEmpty_iff,
    decide_eq_true_eq]
  constructor
  · rintro ⟨⟨⟨hct, hemp⟩, hsub1, hsub2⟩, htypes⟩
    refine ⟨hct, ?_, ?_, ?_⟩
    · rw [Bool.eq_iff_iff] at hemp
      simpa [List.isEmpty_iff] using hemp
    · exact fun k => ⟨fun hk => hsub1 k hk, fun hk => hsub2 k hk⟩
    · intro kv hkv
      exact htypes kv hkv
  · rintro ⟨hct, hemp, hkeys, htypes⟩
    refine ⟨⟨⟨hct, ?_⟩, fun k hk => (hkeys k).mp hk, fun k hk => (hkeys k).mpr hk⟩, ?_⟩
    · rw [Bool.eq_iff_iff]
      simpa [List.isEmpty_iff] using hemp
    · intro kv hkv
      exact htypes kv hkv

theorem compareBody_self (b : Body) : compareBodyStructures b b = true :=
  (compareBody_iff b b).mpr ⟨rfl, Iff.rfl, fun _ => Iff.rfl, fun _ _ => rfl⟩

theorem observeBodyList_idem (l : List Body) (b : Body) :
    observeBodyList (observeBodyList l b) b = observeBodyList l b := by
  unfold observeBodyList
  by_cases h : l.any (fun e => compareBodyStructures e b) = true
  · simp [h]
  · simp only [h, Bool.false_eq_true, if_false]
    have hagain : (l ++ [b]).any (fun e => compareBodyStructures e b) = true := by
      simp [List.any_append, compareBody_self]
    simp [hagain]

/-- C2: every observe operation of the aggregator is idempotent: a second
application with identical arguments leaves the record (and hence its
serialized form) exactly as it was after the first application. -/
theorem C2_observe_operations_idempotent
    (r : Record) (f name e n m : Str) (v : Option Str) (b : Body) :
    serializeRecord (observeFile (observeFile r f) f) = serializeRecord (observeFile r f)
    ∧ serializeRecord (observeStaticParam (observeStaticParam r name v) name v)
        = serializeRecord (observeStaticParam r name v)
    ∧ serializeRecord (observeTemplateParam (observeTemplateParam r e) e)
        = serializeRecord (observeTemplateParam r e)
    ∧ serializeRecord (observeDynamicParam (observeDynamicParam r n) n)
        = serializeRecord (observeDynamicParam r n)
    ∧ serializeRecord (observeMethod (observeMethod r m) m)
        = serializeRecord (observeMethod r m)
    ∧ serializeRecord (observeBodyRec (observeBodyRec r b) b)
        = serializeRecord (observeBodyRec r b) := by
  refine ⟨?_, ?_, ?_, ?_, ?_, ?_⟩ <;>
    · apply congrArg serializeRecord
      simp [observeFile, observeStaticParam, observeTemplateParam, observeDynamicParam,
        observeMethod, observeBodyRec, addSet_idem, addParamValue_idem, observeBodyList_idem]

theorem bodyEquivP_symm {b1 b2 : Body} (h : bodyEquivP b1 b2) : bodyEquivP b2 b1 := by
  obtain ⟨hct, hemp, hkeys, htypes⟩ := h
  refine ⟨hct.symm, hemp.symm, fun k => (hkeys k).symm, ?_⟩
  intro kv hkv
  have hk2 : kv.1 ∈ b2.properties.map Prod.fst := List.mem_map_of_mem _ hkv
  have hk1 : kv.1 ∈ b1.properties.map Prod.fst := (hkeys kv.1).mpr hk2
  obtain ⟨kv1, hkv1, hfst⟩ := List.mem_map.mp hk1
  have ht := htypes kv1 hkv1
  rw [hfst] at ht
  exact ht.symm

theorem compareBody_symm (b1 b2 : Body) :
    compareBodyStructures b1 b2 = compareBodyStructures b2 b1 := by
  rw [Bool.eq_iff_iff, compareBody_iff, compareBody_iff]
  exact ⟨bodyEquivP_symm, bodyEquivP_symm⟩

theorem observeBodyList_pairwise (l : List Body)
    (h : List.Pairwise
      (fun a c => compareBodyStructures a c = false ∧ compareBodyStructures c a = false) l)
    (b : Body) :
    List.Pairwise
      (fun a c => compareBodyStructures a c = false ∧ compareBodyStructures c a = false)
      (observeBodyList l b) := by
  unfold observeBodyList
  by_cases hany : l.any (fun e => compareBodyStructures e b) = true
  · simpa [hany] using h
  · simp only [hany, Bool.false_eq_true, if_false]
    rw [List.pairwise_append]
    refine ⟨h, List.pairwise_singleton _ _, ?_⟩
    intro a ha x hx
    rw [List.mem_singleton] at hx
    subst hx
    have hfa : compareBodyStructures a x = false := by
      rw [Bool.not_eq_true, List.any_eq_false] at hany
      simpa using hany a ha
    exact ⟨hfa, by rw [← compareBody_symm]; exact hfa⟩

theorem foldl_observeBodyList_pairwise (bs : List Body) (l : List Body)
    (h : List.Pairwise
      (fun a c => compareBodyStructures a c = false ∧ compareBodyStructures c a = false) l) :
    List.Pairwise
      (fun a c => compareBodyStructures a c = false ∧ compareBodyStructures c a = false)
      (bs.foldl observeBodyList l) := by
  induction bs generalizing l with
  | nil => exact h
  | cons b bs ih => exact ih _ (observeBodyList_pairwise l h b)

/-- C3: a body structure is appended to `request_bodies` exactly when no
existing entry is equivalent to it; the boolean comparison realizes exactly
the shape-only equivalence of the specification; and any sequence of body
observations starting from the empty list yields a list with no two mutually
equivalent entries. -/
theorem C3_request_bodies_no_equivalent_duplicates
    (l : List Body) (b : Body) (bs : List Body) :
    (∀ b1 b2 : Body, compareBodyStructures b1 b2 = true ↔ bodyEquivP b1 b2)
    ∧ (observeBodyList l b = l ↔ ∃ e ∈ l, compareBodyStructures e b = true)
    ∧ (observeBodyList l b = l ++ [b] ↔ ∀ e ∈ l, compareBodyStructures e b = false)
    ∧ List.Pairwise
        (fun a c => compareBodyStructures a c = false ∧ compareBodyStructures c a = false)
        (bs.foldl observeBodyList []) := by
  have hlen : l ≠ l ++ [b] := by
    intro heq
    have := congrArg List.length heq
    simp at this
  refine ⟨compareBody_iff, ?_, ?_, foldl_observeBodyList_pairwise bs [] (by simp)⟩
  · unfold observeBodyList
    by_cases hany : l.any (fun e => compareBodyStructures e b) = true
    · simp only [hany, if_true, true_iff]
      rw [List.any_eq_true] at hany
      simpa using hany
    · simp only [hany, Bool.false_eq_true, if_false]
      constructor
      · intro heq
        exact absurd heq.symm hlen
      · intro hex
        rw [Bool.not_eq_true, List.any_eq_false] at hany
        obtain ⟨e, he, hce⟩ := hex
        exact absurd hce (by simpa using hany e he)
  · unfold observeBodyList
    by_cases hany : l.any (fun e => compareBodyStructures e b) = true
    · simp only [hany, if_true]
      constructor
      · intro heq
        exact absurd heq hlen
      · intro hall
        rw [List.any_eq_true] at hany
        obtain ⟨e, he, hce⟩ := hany
        rw [hall e he] at hce
        exact absurd hce (by simp)
    · simp only [hany, Bool.false_eq_true, if_false, true_iff]
      rw [Bool.not_eq_true, List.any_eq_false] at hany
      intro e he
      simpa using hany e he

/-- C4 counterexample: for the raw value text `\x7ba: 1\x7d` the code stores
the nested example as the raw string `"1"`, not as the number `1` stated by
the claim, so the produced descriptor differs from the stated one. -/
theorem C4_shape_inference_counterexample :
    (classifyValue exObjA1).properties
        ≠ some [("a".data, ⟨"number".data, EValue.intE 1⟩)]
      ∧ (classifyValue exObjA1).properties
        = some [("a".data, ⟨"number".data, EValue.str "1".data⟩)] := by
  constructor
  · decide
  · decide

/-- C4 amended: the descriptors the shape inferencer actually produces for
the six raw value texts of the claim.  `"42"`, `"3.5"`, `"true"` and
`"\x27hello\x27"` match the claim exactly; `"\x7ba: 1\x7d"` additionally
carries the raw text as its own example and stores the nested example as the
string `"1"`; `"[]"` additionally carries the raw text `"[]"` as example. -/
theorem C4_shape_inference_actual_descriptors :
    classifyValue "42".data = ⟨"number".data, .intE 42, none, none⟩
    ∧ classifyValue "3.5".data = ⟨"number".data, .floatE (mkRat 7 2), none, none⟩
    ∧ classifyValue "true".data = ⟨"boolean".data, .boolE true, none, none⟩
    ∧ classifyValue exHello = ⟨"string".data, .str "hello".data, none, none⟩
    ∧ classifyValue exObjA1 = ⟨"object".data, .str exObjA1, none,
        some [("a".data, ⟨"number".data, .str "1".data⟩)]⟩
    ∧ classifyValue "[]".data = ⟨"array".data, .str "[]".data, some "string".data, none⟩ := by
  refine ⟨?_, ?_, ?_, ?_, ?_, ?_⟩ <;> decide

/-- C5 counterexample: the code has no escape handling, so the
backslash-escaped double quote toggles the in-string flag; the code keeps
the whole input as one token while the claim splitting yields two tokens. -/
theorem C5_tokenizer_escape_counterexample :
    tokenizeTop escInput = [escInput]
    ∧ escTokenize escInput = [escTokFirst, "b: 2".data]
    ∧ tokenizeTop escInput ≠ escTokenize escInput := by
  refine ⟨?_, ?_, ?_⟩ <;> decide

/-- C5 amended: the tokenizer splits exactly at the commas outside any quoted
string at brace depth zero and bracket depth zero, where a quote character
toggles the in-string flag only when it matches the active delimiter and no
escape handling exists (a backslash-escaped matching quote does toggle);
every split piece is stripped and the final piece is dropped when it strips
to empty.  The nesting example of the claim holds, and a differently-quoted
delimiter inside a string does not toggle the flag. -/
theorem C5_tokenizer_depth_zero_splits :
    (∀ l : Str, tokenizeTop l = stripSegs (topSegments l))
    ∧ tokenizeTop tokNested = [tokNestedFirst, "b: [1,2,3]".data]
    ∧ tokenizeTop tokDiffQuote = [tokDiffQuoteFirst, "b: 1".data] := by
  refine ⟨tokenize_splits_at_top_commas, ?_, ?_⟩ <;> decide

/-- C7 counterexample: the raw value text `\x7b\x7d` yields no nested
properties, and the code classifies it with type `object`, not `string` as
the claim states. -/
theorem C7_empty_object_counterexample :
    (classifyValue [lbrace, rbrace]).type = "object".data
    ∧ "object".data ≠ "string".data := by
  constructor
  · decide
  · decide

/-- C7 amended: when a brace-delimited raw value text yields no nested
properties, the classification keeps `prop_type = "object"` set before the
recursion and falls through to the plain assignment, producing an
object-typed descriptor with the raw text as example and no nested
properties; the string fallback described by the specification does not
occur. -/
theorem C7_empty_object_classified_as_object
    (v : Str) (h1 : headIs v lbrace = true) (h2 : lastIs v rbrace = true)
    (h3 : extractNestedObjectProperties v = []) :
    classifyValue v = ⟨"object".data, .str v, none, none⟩ := by
  obtain ⟨rest, rfl⟩ : ∃ rest, v = lbrace :: rest := by
    cases v with
    | nil => simp [headIs] at h1
    | cons c t =>
      have hc : c = lbrace := by simpa [headIs] using h1
      exact ⟨t, by rw [hc]⟩
  have hnb : ¬ (lbrace :: rest = "true".data ∨ lbrace :: rest = "false".data) := by
    intro hc
    rcases hc with hc | hc <;>
      · have := List.head_eq_of_cons_eq hc
        revert this
        decide
  have hdig : Char.isDigit lbrace = false := by decide
  have hnd : pyIsDigit (lbrace :: rest) = false := by
    unfold pyIsDigit
    simp [List.all_cons, hdig]
  have hnn : matchNum (lbrace :: rest) = false := by
    have hm : matchNum (lbrace :: rest) = numBody (lbrace :: rest) := by
      rw [matchNum.eq_def]
      split
      · rename_i r heq
        injection heq with hhead _
        exact absurd hhead (by decide)
      · rfl
    rw [hm]
    unfold numBody
    simp [List.takeWhile_cons, hdig]
  have hna : headIs (lbrace :: rest) '[' = false := by
    simp [headIs]
    decide
  unfold classifyValue
  rw [if_neg hnb]
  simp only [hnd, hnn, Bool.or_self, Bool.false_eq_true, if_false]
  rw [if_neg (by simp [hna])]
  rw [if_pos (by simp [h1, h2])]
  simp [h3]

/-- C7 witness: the amended classification at the concrete input `\x7b\x7d`. -/
theorem C7_empty_object_classified_as_object_witness :
    headIs [lbrace, rbrace] lbrace = true
    ∧ lastIs [lbrace, rbrace] rbrace = true
    ∧ extractNestedObjectProperties [lbrace, rbrace] = []
    ∧ classifyValue [lbrace, rbrace]
        = ⟨"object".data, .str [lbrace, rbrace], none, none⟩ :=
  ⟨by decide, by decide, by decide,
   C7_empty_object_classified_as_object [lbrace, rbrace] (by decide) (by decide) (by decide)⟩

theorem observeMethod_foldl_methods (ms : List Str) (r : Record) :
    (ms.foldl observeMethod r).http_methods
      = (ms.map pyUpper).foldl addSet r.http_methods := by
  induction ms generalizing r with
  | nil => rfl
  | cons m ms ih => simp [List.foldl_cons, List.map_cons, ih, observeMethod]

theorem addSet_ne_nil {α : Type} [DecidableEq α] (l : List α) (x : α) :
    addSet l x ≠ [] := by
  unfold addSet
  split
  · rename_i h
    exact List.ne_nil_of_mem h
  · simp

theorem foldl_addSet_ne_nil {α : Type} [DecidableEq α] (xs : List α) (init : List α)
    (h : xs ≠ []) : xs.foldl addSet init ≠ [] := by
  induction xs generalizing init with
  | nil => exact absurd rfl h
  | cons x t ih =>
    rw [List.foldl_cons]
    by_cases ht : t = []
    · subst ht
      simpa using addSet_ne_nil init x
    · exact ih _ ht

/-- C6: a record on which no method was observed serializes with the method
list `["GET"]`; a record built from a non-empty sequence of method
observations serializes with exactly the uppercased observed tokens. -/
theorem C6_http_methods_default_get (r : Record) (ms : List Str) :
    (r.http_methods = [] → (serializeRecord r).http_methods = ["GET".data])
    ∧ (ms ≠ [] → ∀ m, m ∈ (serializeRecord (ms.foldl observeMethod defaultRecord)).http_methods
        ↔ ∃ x ∈ ms, m = pyUpper x) := by
  constructor
  · intro h
    simp [serializeRecord, h]
  · intro hne m
    have hm : (ms.foldl observeMethod defaultRecord).http_methods
        = (ms.map pyUpper).foldl addSet [] := by
      rw [observeMethod_foldl_methods]
      rfl
    have hnn : (ms.map pyUpper).foldl addSet ([] : List Str) ≠ [] :=
      foldl_addSet_ne_nil _ _ (by simpa using hne)
    unfold serializeRecord
    simp only [hm]
    rw [if_neg hnn, mem_foldl_addSet]
    simp only [List.not_mem_nil, false_or, List.mem_map]
    constructor
    · rintro ⟨x, hx, rfl⟩
      exact ⟨x, hx, rfl⟩
    · rintro ⟨x, hx, rfl⟩
      exact ⟨x, hx, rfl⟩

/-- C6 witness: a fresh record serializes with `["GET"]`, and one `post`
observation serializes to a list containing exactly `POST`. -/
theorem C6_http_methods_default_get_witness :
    (serializeRecord defaultRecord).http_methods = ["GET".data]
    ∧ ("POST".data ∈ (serializeRecord (["post".data].foldl observeMethod
          defaultRecord)).http_methods
        ↔ ∃ x ∈ ["post".data], "POST".data = pyUpper x) :=
  ⟨(C6_http_methods_default_get defaultRecord []).1 rfl,
   (C6_http_methods_default_get defaultRecord ["post".data]).2 (by decide) "POST".data⟩

/-- C9: a malformed token (one without a colon) anywhere in the token list
is skipped individually: the extracted property dict is the same as if the
token had not been there, both for the top-level token loop of
`_extract_body_structure` and for the nested token loop of
`_extract_nested_object_properties`.  The embedding of the extraction is a
total function, matching the catch-all exception handlers of the source
(lines 531-534 and 554-555): no input makes it fail. -/
theorem C9_malformed_tokens_skipped
    (props : List (Str × Shape)) (nprops : List (Str × NShape))
    (xs ys : List Str) (bad : Str) (h : ':' ∉ bad) :
    (xs ++ bad :: ys).foldl tokenStep props = (xs ++ ys).foldl tokenStep props
    ∧ (xs ++ bad :: ys).foldl nestedTokenStep nprops = (xs ++ ys).foldl nestedTokenStep nprops := by
  have hbad1 : ∀ p, tokenStep p bad = p := by
    intro p
    simp [tokenStep, h]
  have hbad2 : ∀ p, nestedTokenStep p bad = p := by
    intro p
    simp [nestedTokenStep, h]
  constructor
  · rw [List.foldl_append, List.foldl_cons, hbad1, ← List.foldl_append]
  · rw [List.foldl_append, List.foldl_cons, hbad2, ← List.foldl_append]

/-- C9 witness: the skip property at a concrete token list. -/
theorem C9_malformed_tokens_skipped_witness :
    (':' ∉ "nocolon".data)
    ∧ (["a: 1".data] ++ "nocolon".data :: []).foldl tokenStep []
        = (["a: 1".data] ++ []).foldl tokenStep [] :=
  ⟨by decide,
   (C9_malformed_tokens_skipped [] [] ["a: 1".data] [] "nocolon".data (by decide)).1⟩

theorem foldl_tokenStep_all_skipped (ts : List Str) (props : List (Str × Shape))
    (h : ∀ t ∈ ts, ':' ∉ t) : ts.foldl tokenStep props = props := by
  induction ts generalizing props with
  | nil => rfl
  | cons t ts ih =>
    rw [List.foldl_cons]
    have ht : tokenStep props t = props := by
      simp [tokenStep, h t (by simp)]
    rw [ht]
    exact ih _ (fun x hx => h x (by simp [hx]))

/-- C10: one body-structure extraction call touches at most the
`request_bodies` list of the one addressed endpoint record: every other key
is untouched, every other field of the addressed record is unchanged, and
`request_bodies` is either unchanged or extended by exactly one entry.  When
the stripped text is not brace-delimited, or the stripped inside is
non-empty and no token carries a colon, the whole aggregator state is
returned unchanged (in particular no record is created). -/
theorem C10_extract_body_frame (st : AggState) (ep text : Str) :
    (∀ k, k ≠ ep → lookupA (extractBodyStructure st ep text) k = lookupA st k)
    ∧ (getRec (extractBodyStructure st ep text) ep).files = (getRec st ep).files
    ∧ (getRec (extractBodyStructure st ep text) ep).params = (getRec st ep).params
    ∧ (getRec (extractBodyStructure st ep text) ep).template_params
        = (getRec st ep).template_params
    ∧ (getRec (extractBodyStructure st ep text) ep).dynamic_patterns
        = (getRec st ep).dynamic_patterns
    ∧ (getRec (extractBodyStructure st ep text) ep).http_methods
        = (getRec st ep).http_methods
    ∧ (getRec (extractBodyStructure st ep text) ep).responses = (getRec st ep).responses
    ∧ ((getRec (extractBodyStructure st ep text) ep).request_bodies
          = (getRec st ep).request_bodies
        ∨ ∃ b, (getRec (extractBodyStructure st ep text) ep).request_bodies
          = (getRec st ep).request_bodies ++ [b])
    ∧ (¬(headIs (pyStrip text) lbrace = true ∧ lastIs (pyStrip text) rbrace = true) →
        extractBodyStructure st ep text = st)
    ∧ (pyStrip (dropEnds (pyStrip text)) ≠ [] →
        (∀ t ∈ tokenizeTop (pyStrip (dropEnds (pyStrip text))), ':' ∉ t) →
        extractBodyStructure st ep text = st) := by
  by_cases hbr : (headIs (pyStrip text) lbrace && lastIs (pyStrip text) rbrace) = true
  · by_cases hpe : extractProps (pyStrip (dropEnds (pyStrip text))) = []
    · have hres : extractBodyStructure st ep text = st := by
        unfold extractBodyStructure
        dsimp only
        rw [if_neg (not_not_intro hbr), if_pos hpe]
      rw [hres]
      exact ⟨fun _ _ => rfl, rfl, rfl, rfl, rfl, rfl, rfl, Or.inl rfl,
        fun _ => rfl, fun _ _ => rfl⟩
    · have hres : extractBodyStructure st ep text
          = upsert st ep (observeBodyRec (getRec st ep)
              ⟨"application/json".data, extractProps (pyStrip (dropEnds (pyStrip text)))⟩) := by
        unfold extractBodyStructure
        dsimp only
        rw [if_neg (not_not_intro hbr), if_neg hpe]
      have hget : getRec (extractBodyStructure st ep text) ep
          = observeBodyRec (getRec st ep)
              ⟨"application/json".data, extractProps (pyStrip (dropEnds (pyStrip text)))⟩ := by
        rw [hres, getRec_upsert_self]
      refine ⟨?_, ?_, ?_, ?_, ?_, ?_, ?_, ?_, ?_, ?_⟩
      · intro k hk
        rw [hres]
        exact lookupA_upsert_ne st ep k _ hk
      · rw [hget]; rfl
      · rw [hget]; rfl
      · rw [hget]; rfl
      · rw [hget]; rfl
      · rw [hget]; rfl
      · rw [hget]; rfl
      · rw [hget]
        show observeBodyList (getRec st ep).request_bodies _ = _
          ∨ ∃ b, observeBodyList (getRec st ep).request_bodies _ = _ ++ [b]
        unfold observeBodyList
        split
        · exact Or.inl rfl
        · exact Or.inr ⟨_, rfl⟩
      · intro h9
        rw [Bool.and_eq_true] at hbr
        exact absurd hbr h9
      · intro hne hall
        exfalso
        apply hpe
        unfold extractProps
        rw [if_neg hne]
        exact foldl_tokenStep_all_skipped _ _ hall
  · have hres : extractBodyStructure st ep text = st := by
      unfold extractBodyStructure
      dsimp only
      rw [if_pos hbr]
    rw [hres]
    exact ⟨fun _ _ => rfl, rfl, rfl, rfl, rfl, rfl, rfl, Or.inl rfl,
      fun _ => rfl, fun _ _ => rfl⟩

/-- C10 witness: at the non-brace-delimited text `nope` the state is
returned unchanged, and the frame conclusions hold at that input. -/
theorem C10_extract_body_frame_witness :
    (¬(headIs (pyStrip "nope".data) lbrace = true
        ∧ lastIs (pyStrip "nope".data) rbrace = true))
    ∧ extractBodyStructure [] "/api/x".data "nope".data = [] :=
  ⟨by decide,
   (C10_extract_body_frame [] "/api/x".data "nope".data).2.2.2.2.2.2.2.2.1 (by decide)⟩

theorem hasNoneEntry_appendParamList (ps : List (Str × List (Option Str)))
    (p k : Str) (v : Option Str) (h : hasNoneEntry ps p) :
    hasNoneEntry (appendParamList ps k v) p := by
  obtain ⟨vs, hvs, hn⟩ := h
  induction ps generalizing vs with
  | nil => simp [lookupA] at hvs
  | cons q t ih =>
    obtain ⟨a, b⟩ := q
    by_cases hak : a = k
    · subst hak
      by_cases hap : a = p
      · subst hap
        simp only [lookupA, eq_self_iff_true, if_true, Option.some.injEq] at hvs
        subst hvs
        exact ⟨b ++ [v], by simp [appendParamList, lookupA], by simp [hn]⟩
      · simp only [lookupA, hap, if_false] at hvs
        exact ⟨vs, by simp [appendParamList, lookupA, hap, hvs], hn⟩
    · by_cases hap : a = p
      · subst hap
        simp only [lookupA, eq_self_iff_true, if_true, Option.some.injEq] at hvs
        subst hvs
        exact ⟨b, by simp [appendParamList, hak, lookupA], hn⟩
      · simp only [lookupA, hap, if_false] at hvs
        obtain ⟨vs', hvs', hn'⟩ := ih vs hvs hn
        exact ⟨vs', by simp [appendParamList, hak, lookupA, hap, hvs'], hn'⟩

theorem hasNoneEntry_appendParamList_self (ps : List (Str × List (Option Str)))
    (p : Str) : hasNoneEntry (appendParamList ps p none) p := by
  induction ps with
  | nil => exact ⟨[none], by simp [appendParamList, lookupA], by simp⟩
  | cons q t ih =>
    obtain ⟨a, b⟩ := q
    by_cases hap : a = p
    · subst hap
      exact ⟨b ++ [none], by simp [appendParamList, lookupA], by simp⟩
    · obtain ⟨vs, hvs, hn⟩ := ih
      exact ⟨vs, by simp [appendParamList, hap, lookupA, hvs], hn⟩

theorem hasNoneEntry_qsStep (acc : List (Str × List (Option Str))) (param p : Str)
    (h : hasNoneEntry acc p) : hasNoneEntry (qsStep acc param) p := by
  unfold qsStep
  split
  · exact hasNoneEntry_appendParamList _ _ _ _ h
  · exact hasNoneEntry_appendParamList _ _ _ _ h

theorem parse_fold_hasNone (segs : List Str) (p : Str) (hne : '=' ∉ p) :
    ∀ acc, (hasNoneEntry acc p ∨ p ∈ segs) →
      hasNoneEntry (segs.foldl qsStep acc) p := by
  induction segs with
  | nil =>
    rintro acc (h | h)
    · exact h
    · simp at h
  | cons s t ih =>
    rintro acc (h | h)
    · exact ih _ (Or.inl (hasNoneEntry_qsStep acc s p h))
    · rw [List.mem_cons] at h
      rcases h with rfl | h
      · refine ih _ (Or.inl ?_)
        unfold qsStep
        rw [if_neg hne]
        exact hasNoneEntry_appendParamList_self acc p
      · exact ih _ (Or.inr h)

theorem lookupA_mem {β : Type} (ps : List (Str × β)) (k : Str) (v : β)
    (h : lookupA ps k = some v) : (k, v) ∈ ps := by
  induction ps with
  | nil => simp [lookupA] at h
  | cons q t ih =>
    obtain ⟨a, b⟩ := q
    by_cases hak : a = k
    · subst hak
      simp only [lookupA, eq_self_iff_true, if_true, Option.some.injEq] at h
      subst h
      simp
    · simp only [lookupA, hak, if_false] at h
      exact List.mem_cons_of_mem _ (ih h)

theorem hasNoneParam_addParamValue (ps : List (Str × List (Option Str)))
    (p k : Str) (v : Option Str)
    (h : hasNoneEntry ps p) : hasNoneEntry (addParamValue ps k v) p := by
  obtain ⟨vs, hvs, hn⟩ := h
  induction ps generalizing vs with
  | nil => simp [lookupA] at hvs
  | cons q t ih =>
    obtain ⟨a, b⟩ := q
    by_cases hak : a = k
    · subst hak
      by_cases hap : a = p
      · subst hap
        simp only [lookupA, eq_self_iff_true, if_true, Option.some.injEq] at hvs
        subst hvs
        exact ⟨addSet b v, by simp [addParamValue, lookupA],
          (addSet_mem b v none).mpr (Or.inl hn)⟩
      · simp only [lookupA, hap, if_false] at hvs
        exact ⟨vs, by simp [addParamValue, lookupA, hap, hvs], hn⟩
    · by_cases hap : a = p
      · subst hap
        simp only [lookupA, eq_self_iff_true, if_true, Option.some.injEq] at hvs
        subst hvs
        exact ⟨b, by simp [addParamValue, hak, lookupA], hn⟩
      · simp only [lookupA, hap, if_false] at hvs
        obtain ⟨vs', hvs', hn'⟩ := ih vs hvs hn
        exact ⟨vs', by simp [addParamValue, hak, lookupA, hap, hvs'], hn'⟩

theorem hasNoneParam_addParamValue_self (ps : List (Str × List (Option Str)))
    (p : Str) : hasNoneEntry (addParamValue ps p none) p := by
  induction ps with
  | nil =>
    exact ⟨addSet [] none, by simp [addParamValue, lookupA],
      (addSet_mem [] none none).mpr (Or.inr rfl)⟩
  | cons q t ih =>
    obtain ⟨a, b⟩ := q
    by_cases hap : a = p
    · subst hap
      exact ⟨addSet b none, by simp [addParamValue, lookupA],
        (addSet_mem b none none).mpr (Or.inr rfl)⟩
    · obtain ⟨vs, hvs, hn⟩ := ih
      exact ⟨vs, by simp [addParamValue, hap, lookupA, hvs], hn⟩

theorem hasNoneParam_observeStaticParam (r : Record) (p k : Str) (v : Option Str)
    (h : hasNoneParam r p) : hasNoneParam (observeStaticParam r k v) p := by
  obtain ⟨vs, hvs, hn⟩ := h
  exact hasNoneParam_addParamValue r.params p k v ⟨vs, hvs, hn⟩

theorem hasNoneParam_vsFold_pres (vs : List (Option Str)) (k p : Str) (r : Record)
    (h : hasNoneParam r p) :
    hasNoneParam (vs.foldl (fun r v => observeStaticParam r k v) r) p := by
  induction vs generalizing r with
  | nil => exact h
  | cons v t ih => exact ih _ (hasNoneParam_observeStaticParam r p k v h)

theorem hasNoneParam_vsFold (vs : List (Option Str)) (p : Str) (hv : none ∈ vs)
    (r : Record) :
    hasNoneParam (vs.foldl (fun r v => observeStaticParam r p v) r) p := by
  induction vs generalizing r with
  | nil => simp at hv
  | cons v t ih =>
    rw [List.mem_cons] at hv
    rcases hv with rfl | hv
    · rw [List.foldl_cons]
      exact hasNoneParam_vsFold_pres t p p _
        (hasNoneParam_addParamValue_self r.params p)
    · exact ih hv _

theorem hasNoneParam_obsEntryStep_pres (kv : Str × List (Option Str)) (p : Str)
    (r : Record) (h : hasNoneParam r p) : hasNoneParam (obsEntryStep r kv) p :=
  hasNoneParam_vsFold_pres kv.2 kv.1 p r h

theorem hasNoneParam_entriesFold_pres (entries : List (Str × List (Option Str)))
    (p : Str) (r : Record) (h : hasNoneParam r p) :
    hasNoneParam (entries.foldl obsEntryStep r) p := by
  induction entries generalizing r with
  | nil => exact h
  | cons kv t ih => exact ih _ (hasNoneParam_obsEntryStep_pres kv p r h)

theorem hasNoneParam_entriesFold (entries : List (Str × List (Option Str)))
    (p : Str) (vs : List (Option Str)) (hmem : (p, vs) ∈ entries) (hv : none ∈ vs)
    (r : Record) : hasNoneParam (entries.foldl obsEntryStep r) p := by
  induction entries generalizing r with
  | nil => simp at hmem
  | cons kv t ih =>
    rw [List.mem_cons] at hmem
    rcases hmem with rfl | hmem
    · rw [List.foldl_cons]
      exact hasNoneParam_entriesFold_pres t p _ (hasNoneParam_vsFold vs p hv r)
    · exact ih hmem _

/-- C8 counterexample: observing the valueless query segment `foo` records
the parameter with the value set `[None]`, which is not the empty set the
claim states. -/
theorem C8_no_value_param_counterexample :
    (observeQueryString defaultRecord "foo".data).params = [("foo".data, [none])]
    ∧ ([(none : Option Str)] : List (Option Str)) ≠ [] := by
  constructor
  · decide
  · decide

/-- C8 amended: a static query parameter observed without a literal value is
recorded as present with its value set containing the null marker `None`
(serialized as `null`), not with an empty value set. -/
theorem C8_no_value_param_null_marker (r : Record) (qs p : Str)
    (hp : p ∈ splitChar '&' qs) (hne : '=' ∉ p) :
    ∃ vs, lookupA (observeQueryString r qs).params p = some vs ∧ none ∈ vs := by
  have h1 : hasNoneEntry (parseQueryString qs) p :=
    parse_fold_hasNone _ p hne [] (Or.inr hp)
  obtain ⟨vs, hvs, hn⟩ := h1
  have hmem := lookupA_mem _ _ _ hvs
  exact hasNoneParam_entriesFold _ p vs hmem hn r

/-- C8 witness: the amended statement at the concrete query string `foo`. -/
theorem C8_no_value_param_null_marker_witness :
    ("foo".data ∈ splitChar '&' "foo".data) ∧ ('=' ∉ "foo".data)
    ∧ ∃ vs, lookupA (observeQueryString defaultRecord "foo".data).params "foo".data
        = some vs ∧ none ∈ vs :=
  ⟨by decide, by decide,
   C8_no_value_param_null_marker defaultRecord "foo".data "foo".data
     (by decide) (by decide)⟩

end SRA

